import Mathlib

/-!
Verification of the wiz-ambilight repository (ambilight.py, find_bulb.py).

The color-processing functions operate on Python floats / numpy float32.
All the arithmetic these claims exercise is modelled in exact rational
arithmetic (ℚ); where a claim is settled by a concrete evaluation, the
rational value coincides with the float value the source computes
(the blend 0.75·n + 0.25·o of 8-bit integers and the band means of an
80×45 image are exactly representable in binary floating point).
Python int() and numpy astype(int) truncate toward zero, modelled by
ratTrunc. Colors are triples of integers (ℤ × ℤ × ℤ).
-/

/-- Truncation toward zero of a rational, the semantics of Python int()
applied to a float. -/
def ratTrunc (x : ℚ) : ℤ := if 0 ≤ x then ⌊x⌋ else -⌊-x⌋

/-- Python float modulo: x % y for y > 0 returns x - y·⌊x/y⌋, the
representative in [0, y). Used by the hue computation `h = (...) % 6`. -/
def pymod (x y : ℚ) : ℚ := x - y * ⌊x / y⌋

/-- Embedding of smooth_color (ambilight.py lines 143-146):
tuple(int(alpha * n + (1 - alpha) * o) for n, o in zip(new, old)).
The products 0.75·n and 0.25·o of 8-bit channel values are exact in
floating point, so the float expression equals the rational one. -/
def smooth_color (nc oc : ℤ × ℤ × ℤ) (alpha : ℚ) : ℤ × ℤ × ℤ :=
  (ratTrunc (alpha * nc.1 + (1 - alpha) * oc.1),
   ratTrunc (alpha * nc.2.1 + (1 - alpha) * oc.2.1),
   ratTrunc (alpha * nc.2.2 + (1 - alpha) * oc.2.2))

/-- Modelled from the spec (refinement reference for claim C3): per-channel
round_to_int(alpha·new + (1 - alpha)·old), rounding to the nearest integer,
which is what the spec says smoothing computes. -/
def smooth_color_rounded (nc oc : ℤ × ℤ × ℤ) (alpha : ℚ) : ℤ × ℤ × ℤ :=
  (round (alpha * nc.1 + (1 - alpha) * oc.1),
   round (alpha * nc.2.1 + (1 - alpha) * oc.2.1),
   round (alpha * nc.2.2 + (1 - alpha) * oc.2.2))

/-- All three channels of a color are in the 8-bit range [0, 255]. -/
def inRange (c : ℤ × ℤ × ℤ) : Prop :=
  0 ≤ c.1 ∧ c.1 ≤ 255 ∧ 0 ≤ c.2.1 ∧ c.2.1 ≤ 255 ∧ 0 ≤ c.2.2 ∧ c.2.2 ≤ 255

instance (c : ℤ × ℤ × ℤ) : Decidable (inRange c) := by
  unfold inRange; infer_instance

lemma ratTrunc_intCast (n : ℤ) : ratTrunc (n : ℚ) = n := by
  unfold ratTrunc
  rcases le_or_lt 0 (n : ℚ) with h | h
  · rw [if_pos h, Int.floor_intCast]
  · rw [if_neg (not_le.mpr h)]
    rw [show (-(n : ℚ)) = ((-n : ℤ) : ℚ) by push_cast; ring, Int.floor_intCast]
    ring

lemma ratTrunc_of_nonneg {x : ℚ} (hx : 0 ≤ x) : ratTrunc x = ⌊x⌋ := by
  unfold ratTrunc; rw [if_pos hx]

/-- Claim C3 is false as stated: on new = (1,1,1), old = (0,0,0) the code
truncates 0.75 down to 0 while round-to-nearest gives 1. -/
theorem smooth_not_rounded :
    smooth_color (1, 1, 1) (0, 0, 0) (3/4) = (0, 0, 0) ∧
    smooth_color_rounded (1, 1, 1) (0, 0, 0) (3/4) = (1, 1, 1) ∧
    smooth_color (1, 1, 1) (0, 0, 0) (3/4) ≠
      smooth_color_rounded (1, 1, 1) (0, 0, 0) (3/4) := by
  refine ⟨?_, ?_, ?_⟩ <;>
    norm_num [smooth_color, smooth_color_rounded, ratTrunc,
      round_eq, Int.floor_eq_iff]

/-- Claim C3 (amended): for channels in [0,255] the smoothing operation
returns, per channel, the blend 0.75·new + 0.25·previous truncated
(floored, the blend being nonnegative), not rounded to nearest. -/
theorem smooth_color_floor (nc oc : ℤ × ℤ × ℤ)
    (hn : inRange nc) (ho : inRange oc) :
    smooth_color nc oc (3/4) =
      (⌊(3/4 : ℚ) * nc.1 + (1/4) * oc.1⌋,
       ⌊(3/4 : ℚ) * nc.2.1 + (1/4) * oc.2.1⌋,
       ⌊(3/4 : ℚ) * nc.2.2 + (1/4) * oc.2.2⌋) := by
  obtain ⟨h1, -, h2, -, h3, -⟩ := hn
  obtain ⟨g1, -, g2, -, g3, -⟩ := ho
  have c1 : (0 : ℚ) ≤ nc.1 := by exact_mod_cast h1
  have c2 : (0 : ℚ) ≤ nc.2.1 := by exact_mod_cast h2
  have c3 : (0 : ℚ) ≤ nc.2.2 := by exact_mod_cast h3
  have d1 : (0 : ℚ) ≤ oc.1 := by exact_mod_cast g1
  have d2 : (0 : ℚ) ≤ oc.2.1 := by exact_mod_cast g2
  have d3 : (0 : ℚ) ≤ oc.2.2 := by exact_mod_cast g3
  unfold smooth_color
  rw [ratTrunc_of_nonneg (by positivity), ratTrunc_of_nonneg (by positivity),
    ratTrunc_of_nonneg (by positivity)]
  norm_num

/-- Witness for smooth_color_floor at new = (1,2,3), old = (4,5,6). -/
theorem smooth_color_floor_witness :
    inRange (1, 2, 3) ∧ inRange (4, 5, 6) ∧
    smooth_color (1, 2, 3) (4, 5, 6) (3/4) =
      (⌊(3/4 : ℚ) * (1 : ℤ) + (1/4) * (4 : ℤ)⌋,
       ⌊(3/4 : ℚ) * (2 : ℤ) + (1/4) * (5 : ℤ)⌋,
       ⌊(3/4 : ℚ) * (3 : ℤ) + (1/4) * (6 : ℤ)⌋) :=
  ⟨by decide, by decide,
    smooth_color_floor (1, 2, 3) (4, 5, 6) (by decide) (by decide)⟩

/-- Embedding of the band sums of extract_edge_average (ambilight.py lines
52-74) for one channel plane: the slices img_array[:5, :], img_array[-5:, :],
img_array[:, :5], img_array[:, -5:] of the 45×80 array, stacked; the source
takes the mean over the stacked 1250 rows, which equals this total divided
by 1250. -/
def edgeSum (ch : ℕ → ℕ → ℤ) : ℤ :=
  (∑ i ∈ Finset.range 5, ∑ j ∈ Finset.range 80, ch i j) +
  (∑ i ∈ Finset.range 5, ∑ j ∈ Finset.range 80, ch (40 + i) j) +
  (∑ i ∈ Finset.range 45, ∑ j ∈ Finset.range 5, ch i j) +
  (∑ i ∈ Finset.range 45, ∑ j ∈ Finset.range 5, ch i (75 + j))

/-- Embedding of extract_edge_average on the already-resized 80×45 image
(resize is the identity on an image that is already 80×45; the image is
indexed img i j with row i < 45 and column j < 80). Per channel the source
computes edges.mean(axis=0).astype(int); the mean of at most 1250·255 over
1250 is exact enough in double precision that truncation of the float equals
truncation of the exact rational. -/
def extract_edge_average (img : ℕ → ℕ → ℤ × ℤ × ℤ) : ℤ × ℤ × ℤ :=
  (ratTrunc ((edgeSum (fun i j => (img i j).1) : ℚ) / 1250),
   ratTrunc ((edgeSum (fun i j => (img i j).2.1) : ℚ) / 1250),
   ratTrunc ((edgeSum (fun i j => (img i j).2.2) : ℚ) / 1250))

/-- Number of bands of thickness 5 containing pixel (i, j) of the 45×80
grid: top five rows, bottom five rows, left five columns, right five
columns — a corner pixel is counted once per band containing it. -/
def bandWeight (i j : ℕ) : ℤ :=
  (if i < 5 then 1 else 0) + (if 40 ≤ i then 1 else 0) +
  (if j < 5 then 1 else 0) + (if 75 ≤ j then 1 else 0)

/-- Channel total over the edge region, each pixel weighted by the number
of bands containing it. -/
def specEdgeSum (ch : ℕ → ℕ → ℤ) : ℤ :=
  ∑ i ∈ Finset.range 45, ∑ j ∈ Finset.range 80, bandWeight i j * ch i j

/-- Total number of edge samples (pixels counted with band multiplicity). -/
def specEdgeCount : ℤ :=
  ∑ i ∈ Finset.range 45, ∑ j ∈ Finset.range 80, bandWeight i j

/-- Image with the pixel at row i0, column j0 replaced by p. -/
def updatePixel (img : ℕ → ℕ → ℤ × ℤ × ℤ) (i0 j0 : ℕ) (p : ℤ × ℤ × ℤ) :
    ℕ → ℕ → ℤ × ℤ × ℤ :=
  fun i j => if i = i0 ∧ j = j0 then p else img i j

lemma sum_range_ite_lt (n b : ℕ) (hb : b ≤ n) (S : ℕ → ℤ) :
    (∑ i ∈ Finset.range n, if i < b then S i else 0) =
      ∑ i ∈ Finset.range b, S i := by
  have hsub : Finset.range b ⊆ Finset.range n := Finset.range_subset.mpr hb
  have h1 : (∑ i ∈ Finset.range b, if i < b then S i else 0) =
      ∑ i ∈ Finset.range n, if i < b then S i else 0 := by
    refine Finset.sum_subset hsub fun x _ hx => ?_
    rw [if_neg (by simpa using hx)]
  rw [← h1]
  refine Finset.sum_congr rfl fun i hi => if_pos (Finset.mem_range.mp hi)

lemma sum_range_ite_ge (n a : ℕ) (S : ℕ → ℤ) :
    (∑ i ∈ Finset.range n, if a ≤ i then S i else 0) =
      ∑ i ∈ Finset.range (n - a), S (a + i) := by
  rcases le_or_lt a n with h | h
  · have hsub : Finset.Ico a n ⊆ Finset.range n := by
      intro x hx
      exact Finset.mem_range.mpr (Finset.mem_Ico.mp hx).2
    have h1 : (∑ i ∈ Finset.Ico a n, if a ≤ i then S i else 0) =
        ∑ i ∈ Finset.range n, if a ≤ i then S i else 0 := by
      refine Finset.sum_subset hsub fun x hx hx2 => ?_
      rw [if_neg]
      intro hax
      exact hx2 (Finset.mem_Ico.mpr ⟨hax, Finset.mem_range.mp hx⟩)
    rw [← h1,
      Finset.sum_congr rfl fun i hi => if_pos (Finset.mem_Ico.mp hi).1,
      Finset.sum_Ico_eq_sum_range]
  · have hz : (∑ i ∈ Finset.range n, if a ≤ i then S i else 0) = 0 := by
      refine Finset.sum_eq_zero fun i hi => ?_
      rw [if_neg]
      have := Finset.mem_range.mp hi
      omega
    have hz2 : n - a = 0 := by omega
    rw [hz, hz2]
    simp

lemma bandSumTop (ch : ℕ → ℕ → ℤ) :
    (∑ i ∈ Finset.range 45, ∑ j ∈ Finset.range 80,
        if i < 5 then ch i j else 0) =
      ∑ i ∈ Finset.range 5, ∑ j ∈ Finset.range 80, ch i j := by
  have h : ∀ i ∈ Finset.range 45,
      (∑ j ∈ Finset.range 80, if i < 5 then ch i j else 0) =
        if i < 5 then ∑ j ∈ Finset.range 80, ch i j else 0 := by
    intro i _
    split <;> simp
  rw [Finset.sum_congr rfl h, sum_range_ite_lt 45 5 (by norm_num)]

lemma bandSumBottom (ch : ℕ → ℕ → ℤ) :
    (∑ i ∈ Finset.range 45, ∑ j ∈ Finset.range 80,
        if 40 ≤ i then ch i j else 0) =
      ∑ i ∈ Finset.range 5, ∑ j ∈ Finset.range 80, ch (40 + i) j := by
  have h : ∀ i ∈ Finset.range 45,
      (∑ j ∈ Finset.range 80, if 40 ≤ i then ch i j else 0) =
        if 40 ≤ i then ∑ j ∈ Finset.range 80, ch i j else 0 := by
    intro i _
    split <;> simp
  rw [Finset.sum_congr rfl h, sum_range_ite_ge 45 40]

lemma bandSumLeft (ch : ℕ → ℕ → ℤ) :
    (∑ i ∈ Finset.range 45, ∑ j ∈ Finset.range 80,
        if j < 5 then ch i j else 0) =
      ∑ i ∈ Finset.range 45, ∑ j ∈ Finset.range 5, ch i j :=
  Finset.sum_congr rfl fun i _ => sum_range_ite_lt 80 5 (by norm_num) (ch i)

lemma bandSumRight (ch : ℕ → ℕ → ℤ) :
    (∑ i ∈ Finset.range 45, ∑ j ∈ Finset.range 80,
        if 75 ≤ j then ch i j else 0) =
      ∑ i ∈ Finset.range 45, ∑ j ∈ Finset.range 5, ch i (75 + j) :=
  Finset.sum_congr rfl fun i _ => sum_range_ite_ge 80 75 (ch i)

lemma specEdgeSum_eq_edgeSum (ch : ℕ → ℕ → ℤ) : specEdgeSum ch = edgeSum ch := by
  unfold specEdgeSum bandWeight
  have h1 : ∀ i ∈ Finset.range 45, ∀ j ∈ Finset.range 80,
      ((if i < 5 then (1 : ℤ) else 0) + (if 40 ≤ i then 1 else 0) +
        (if j < 5 then 1 else 0) + (if 75 ≤ j then 1 else 0)) * ch i j =
      (if i < 5 then ch i j else 0) + (if 40 ≤ i then ch i j else 0) +
        (if j < 5 then ch i j else 0) + (if 75 ≤ j then ch i j else 0) := by
    intro i _ j _
    simp only [add_mul, ite_mul, one_mul, zero_mul]
  rw [Finset.sum_congr rfl fun i hi =>
    Finset.sum_congr rfl fun j hj => h1 i hi j hj]
  simp only [Finset.sum_add_distrib]
  rw [bandSumTop, bandSumBottom, bandSumLeft, bandSumRight]
  rfl

lemma specEdgeCount_eq : specEdgeCount = 1250 := by
  have h : specEdgeCount = specEdgeSum fun _ _ => (1 : ℤ) := by
    unfold specEdgeCount specEdgeSum
    simp
  rw [h, specEdgeSum_eq_edgeSum]
  unfold edgeSum
  simp

lemma edgeSum_congr {ch ch2 : ℕ → ℕ → ℤ}
    (h : ∀ i j, i < 45 → j < 80 → ¬(5 ≤ i ∧ i ≤ 39 ∧ 5 ≤ j ∧ j ≤ 74) →
      ch2 i j = ch i j) :
    edgeSum ch2 = edgeSum ch := by
  unfold edgeSum
  have t1 : (∑ i ∈ Finset.range 5, ∑ j ∈ Finset.range 80, ch2 i j) =
      ∑ i ∈ Finset.range 5, ∑ j ∈ Finset.range 80, ch i j := by
    refine Finset.sum_congr rfl fun i hi => Finset.sum_congr rfl fun j hj => ?_
    have hi5 := Finset.mem_range.mp hi
    have hj80 := Finset.mem_range.mp hj
    exact h i j (by omega) hj80 (by omega)
  have t2 : (∑ i ∈ Finset.range 5, ∑ j ∈ Finset.range 80, ch2 (40 + i) j) =
      ∑ i ∈ Finset.range 5, ∑ j ∈ Finset.range 80, ch (40 + i) j := by
    refine Finset.sum_congr rfl fun i hi => Finset.sum_congr rfl fun j hj => ?_
    have hi5 := Finset.mem_range.mp hi
    have hj80 := Finset.mem_range.mp hj
    exact h (40 + i) j (by omega) hj80 (by omega)
  have t3 : (∑ i ∈ Finset.range 45, ∑ j ∈ Finset.range 5, ch2 i j) =
      ∑ i ∈ Finset.range 45, ∑ j ∈ Finset.range 5, ch i j := by
    refine Finset.sum_congr rfl fun i hi => Finset.sum_congr rfl fun j hj => ?_
    have hi45 := Finset.mem_range.mp hi
    have hj5 := Finset.mem_range.mp hj
    exact h i j hi45 (by omega) (by omega)
  have t4 : (∑ i ∈ Finset.range 45, ∑ j ∈ Finset.range 5, ch2 i (75 + j)) =
      ∑ i ∈ Finset.range 45, ∑ j ∈ Finset.range 5, ch i (75 + j) := by
    refine Finset.sum_congr rfl fun i hi => Finset.sum_congr rfl fun j hj => ?_
    have hi45 := Finset.mem_range.mp hi
    have hj5 := Finset.mem_range.mp hj
    exact h i (75 + j) hi45 (by omega) (by omega)
  rw [t1, t2, t3, t4]

lemma edgeSum_const (v : ℤ) : edgeSum (fun _ _ => v) = 1250 * v := by
  unfold edgeSum
  simp
  ring

lemma extract_edge_average_const (c : ℤ × ℤ × ℤ) :
    extract_edge_average (fun _ _ => c) = c := by
  unfold extract_edge_average
  have h : ∀ v : ℤ,
      ratTrunc ((edgeSum (fun _ _ => v) : ℚ) / 1250) = v := by
    intro v
    rw [edgeSum_const]
    have : ((1250 * v : ℤ) : ℚ) / 1250 = (v : ℚ) := by
      push_cast
      ring
    rw [this, ratTrunc_intCast]
  rw [h c.1, h c.2.1, h c.2.2]

/-- Claim C4: the edge average is per channel the arithmetic mean, truncated
to integer, over exactly the four border bands of thickness 5 with corner
pixels counted once per band containing them, and changing an interior
pixel (row 5..39, column 5..74) never changes the result. -/
theorem extract_edge_average_spec (img : ℕ → ℕ → ℤ × ℤ × ℤ)
    (i0 j0 : ℕ) (p : ℤ × ℤ × ℤ)
    (hi1 : 5 ≤ i0) (hi2 : i0 ≤ 39) (hj1 : 5 ≤ j0) (hj2 : j0 ≤ 74) :
    extract_edge_average img =
      (ratTrunc ((specEdgeSum (fun i j => (img i j).1) : ℚ) / (specEdgeCount : ℚ)),
       ratTrunc ((specEdgeSum (fun i j => (img i j).2.1) : ℚ) / (specEdgeCount : ℚ)),
       ratTrunc ((specEdgeSum (fun i j => (img i j).2.2) : ℚ) / (specEdgeCount : ℚ))) ∧
    extract_edge_average (updatePixel img i0 j0 p) = extract_edge_average img := by
  constructor
  · unfold extract_edge_average
    rw [specEdgeCount_eq, specEdgeSum_eq_edgeSum, specEdgeSum_eq_edgeSum,
      specEdgeSum_eq_edgeSum]
    norm_num
  · unfold extract_edge_average
    have hch : ∀ f : ℤ × ℤ × ℤ → ℤ,
        edgeSum (fun i j => f (updatePixel img i0 j0 p i j)) =
          edgeSum (fun i j => f (img i j)) := by
      intro f
      refine edgeSum_congr fun i j h45 h80 hout => ?_
      unfold updatePixel
      rw [if_neg]
      rintro ⟨rfl, rfl⟩
      exact hout ⟨hi1, hi2, hj1, hj2⟩
    rw [hch (fun c => c.1), hch (fun c => c.2.1), hch (fun c => c.2.2)]

/-- Witness for extract_edge_average_spec: the constant image at interior
pixel (10, 10). -/
theorem extract_edge_average_spec_witness :
    (5 ≤ 10 ∧ 10 ≤ 39 ∧ 5 ≤ 10 ∧ 10 ≤ 74) ∧
    (extract_edge_average (fun _ _ => ((7, 8, 9) : ℤ × ℤ × ℤ)) =
      (ratTrunc ((specEdgeSum (fun i j => (((fun _ _ => ((7, 8, 9) : ℤ × ℤ × ℤ)) i j)).1) : ℚ) / (specEdgeCount : ℚ)),
       ratTrunc ((specEdgeSum (fun i j => (((fun _ _ => ((7, 8, 9) : ℤ × ℤ × ℤ)) i j)).2.1) : ℚ) / (specEdgeCount : ℚ)),
       ratTrunc ((specEdgeSum (fun i j => (((fun _ _ => ((7, 8, 9) : ℤ × ℤ × ℤ)) i j)).2.2) : ℚ) / (specEdgeCount : ℚ))) ∧
     extract_edge_average (updatePixel (fun _ _ => ((7, 8, 9) : ℤ × ℤ × ℤ)) 10 10 (0, 0, 0)) =
       extract_edge_average (fun _ _ => ((7, 8, 9) : ℤ × ℤ × ℤ))) :=
  ⟨by decide,
    extract_edge_average_spec (fun _ _ => ((7, 8, 9) : ℤ × ℤ × ℤ)) 10 10 (0, 0, 0)
      (by decide) (by decide) (by decide) (by decide)⟩

/-- Embedding of enhance_color (ambilight.py lines 76-124): RGB → HSV,
multiply saturation by sat_boost and value by val_boost clamping each to
[0, 1], convert back, and truncate each channel of the 0..255 scale.
The source computes in float32; the model uses exact rationals. Python
int() is ratTrunc, float % 6 is pymod, int(h * 6.0) is ratTrunc and the
final i % 6 is the nonnegative integer remainder. -/
def enhance_color (r g b : ℤ) (sat_boost val_boost : ℚ) : ℤ × ℤ × ℤ :=
  let rq : ℚ := r / 255
  let gq : ℚ := g / 255
  let bq : ℚ := b / 255
  let maxc := max rq (max gq bq)
  let minc := min rq (min gq bq)
  let v := maxc
  let delta := maxc - minc
  let hs : ℚ × ℚ :=
    if delta = 0 then (0, 0)
    else
      let s := delta / maxc
      let h :=
        if maxc = rq then pymod ((gq - bq) / delta) 6
        else if maxc = gq then (bq - rq) / delta + 2
        else (rq - gq) / delta + 4
      (h / 6, s)
  let h := hs.1
  let s := max 0 (min 1 (hs.2 * sat_boost))
  let v := max 0 (min 1 (v * val_boost))
  if s = 0 then
    (ratTrunc (v * 255), ratTrunc (v * 255), ratTrunc (v * 255))
  else
    let i : ℤ := ratTrunc (h * 6)
    let f := h * 6 - (i : ℚ)
    let p := v * (1 - s)
    let q := v * (1 - s * f)
    let t := v * (1 - s * (1 - f))
    let i2 := i % 6
    let rgb2 : ℚ × ℚ × ℚ :=
      if i2 = 0 then (v, t, p)
      else if i2 = 1 then (q, v, p)
      else if i2 = 2 then (p, v, t)
      else if i2 = 3 then (p, q, v)
      else if i2 = 4 then (t, p, v)
      else (v, p, q)
    (ratTrunc (rgb2.1 * 255), ratTrunc (rgb2.2.1 * 255), ratTrunc (rgb2.2.2 * 255))

/-- Claim C5: an achromatic input (r = g = b = c) with c in [0,255] maps to
the achromatic color whose channels all equal c scaled by 1.1, clamped to
255, truncated to integer. -/
theorem enhance_color_achromatic (c : ℤ) (h0 : 0 ≤ c) (_h255 : c ≤ 255) :
    enhance_color c c c (14/10) (11/10) =
      (ratTrunc (min ((11 * c : ℚ) / 10) 255),
       ratTrunc (min ((11 * c : ℚ) / 10) 255),
       ratTrunc (min ((11 * c : ℚ) / 10) 255)) := by
  have hcq : (0 : ℚ) ≤ (c : ℚ) := by exact_mod_cast h0
  unfold enhance_color
  simp only [max_self, min_self, sub_self, ite_true, eq_self_iff_true,
    zero_mul, mul_zero]
  norm_num
  have hx : (0 : ℚ) ≤ (c : ℚ) / 255 * (11 / 10) := by positivity
  rw [max_eq_right (le_min (by norm_num) hx)]
  have hmin : ((1 : ℚ) ⊓ ((c : ℚ) / 255 * (11 / 10))) * 255 =
      (11 * (c : ℚ) / 10) ⊓ 255 := by
    rw [min_mul_of_nonneg _ _ (by norm_num : (0 : ℚ) ≤ 255), min_comm]
    congr 1 <;> ring
  rw [hmin]

/-- Witness for enhance_color_achromatic at c = 128: all channels become
int(min(140.8, 255)) = 140. -/
theorem enhance_color_achromatic_witness :
    ((0 : ℤ) ≤ 128 ∧ (128 : ℤ) ≤ 255) ∧
    enhance_color 128 128 128 (14/10) (11/10) =
      (ratTrunc (min ((11 * (128 : ℤ) : ℚ) / 10) 255),
       ratTrunc (min ((11 * (128 : ℤ) : ℚ) / 10) 255),
       ratTrunc (min ((11 * (128 : ℤ) : ℚ) / 10) 255)) :=
  ⟨by decide, enhance_color_achromatic 128 (by decide) (by decide)⟩

/-- Claim C8: enhancement is not idempotent — there is an input color with
channels in [0,255] on which applying the enhancement twice differs from
applying it once (the boosts compound). -/
theorem enhance_color_not_idempotent :
    ∃ r g b : ℤ, 0 ≤ r ∧ r ≤ 255 ∧ 0 ≤ g ∧ g ≤ 255 ∧ 0 ≤ b ∧ b ≤ 255 ∧
      enhance_color (enhance_color r g b (14/10) (11/10)).1
          (enhance_color r g b (14/10) (11/10)).2.1
          (enhance_color r g b (14/10) (11/10)).2.2 (14/10) (11/10) ≠
        enhance_color r g b (14/10) (11/10) := by
  refine ⟨200, 100, 100, by norm_num, by norm_num, by norm_num, by norm_num,
    by norm_num, by norm_num, ?_⟩
  have h1 : enhance_color 200 100 100 (14/10) (11/10) = (220, 66, 66) := by
    norm_num [enhance_color, pymod, ratTrunc, max_def, min_def]
  have h2 : enhance_color 220 66 66 (7/5) (11/10) = (242, 4, 4) := by
    norm_num [enhance_color, pymod, ratTrunc, max_def, min_def]
  rw [h1]
  norm_num
  rw [h2]
  decide

/-- State carried across iterations of the while loop in main:
the previous color and the consecutive miss counter. -/
structure LoopState where
  last_color : ℤ × ℤ × ℤ
  no_vlc_count : ℕ

/-- Observable outcome of one loop iteration: the successor state, which
notices were printed, the color computed by the transform chain (if any),
the datagram content sent to the bulb (if any), and whether the per-cycle
color readout was printed. -/
structure IterResult where
  state : LoopState
  waiting : Bool
  detected : Bool
  computed : Option (ℤ × ℤ × ℤ)
  sent : Option (ℤ × ℤ × ℤ)
  printedColor : Bool

/-- Embedding of one execution of the while-loop body of main (ambilight.py
lines 161-197), as a function of the external inputs of the cycle: geometry
is the result of get_vlc_geometry (none models a falsy result), img the
result of capture_window when that call is reached, and sendOk the return
value of send_color_to_wiz. The timing calls (time.time, time.sleep) do not
affect the state and are not modelled. -/
def loopIter (st : LoopState) (geometry : Option Unit)
    (img : Option (ℕ → ℕ → ℤ × ℤ × ℤ)) (sendOk : Bool) : IterResult :=
  match geometry with
  | none =>
    let cnt := st.no_vlc_count + 1
    { state := { last_color := st.last_color, no_vlc_count := cnt }
      waiting := decide (cnt % 10 = 1)
      detected := false
      computed := none
      sent := none
      printedColor := false }
  | some _ =>
    let det := decide (0 < st.no_vlc_count)
    match img with
    | none =>
      { state := { last_color := st.last_color, no_vlc_count := 0 }
        waiting := false
        detected := det
        computed := none
        sent := none
        printedColor := false }
    | some im =>
      let c0 := extract_edge_average im
      let c1 := smooth_color c0 st.last_color (3/4)
      let c2 := enhance_color c1.1 c1.2.1 c1.2.2 (14/10) (11/10)
      { state := { last_color := c2, no_vlc_count := 0 }
        waiting := false
        detected := det
        computed := some c2
        sent := some c2
        printedColor := sendOk }

/-- Claim C1 is false as stated: in a successful streaming iteration the
stored previous color is not the pre-enhancement (smoothed) color — on a
uniform (200,100,100) frame with previous color black, the smoothed color
is (150,75,75) but the loop stores the enhanced (165,49,49). -/
theorem stored_color_not_preenhancement :
    (loopIter ⟨(0, 0, 0), 0⟩ (some ()) (some fun _ _ => (200, 100, 100))
        true).state.last_color ≠
      smooth_color (extract_edge_average fun _ _ => (200, 100, 100))
        (0, 0, 0) (3/4) := by
  have he : extract_edge_average (fun _ _ => ((200, 100, 100) : ℤ × ℤ × ℤ)) =
      (200, 100, 100) := extract_edge_average_const _
  have hs : smooth_color (200, 100, 100) (0, 0, 0) (3/4) = (150, 75, 75) := by
    norm_num [smooth_color, ratTrunc]
  have hen : enhance_color 150 75 75 (7/5) (11/10) = (165, 49, 49) := by
    norm_num [enhance_color, pymod, ratTrunc, max_def, min_def]
  simp only [loopIter, he, hs]
  norm_num
  rw [hen]
  decide

/-- Claim C1 (amended): in every successful streaming iteration the value
stored as previous color is the enhanced (post-enhancement) color of the
cycle, so the enhancement output is fed back through the smoothing filter
on the next cycle. -/
theorem stored_color_is_enhanced (st : LoopState)
    (img : ℕ → ℕ → ℤ × ℤ × ℤ) (sendOk : Bool) :
    (loopIter st (some ()) (some img) sendOk).state.last_color =
      enhance_color
        (smooth_color (extract_edge_average img) st.last_color (3/4)).1
        (smooth_color (extract_edge_average img) st.last_color (3/4)).2.1
        (smooth_color (extract_edge_average img) st.last_color (3/4)).2.2
        (14/10) (11/10) := rfl

/-- Claim C2 is false as stated: on the very first consecutive miss the
waiting notice is printed although the miss counter 1 is not a multiple
of 10. -/
theorem waiting_notice_on_first_miss :
    (loopIter ⟨(0, 0, 0), 0⟩ none none true).waiting = true ∧
    (loopIter ⟨(0, 0, 0), 0⟩ none none true).state.no_vlc_count % 10 ≠ 0 := by
  decide

/-- Claim C2 (amended): while the window locator keeps returning not-found,
the loop increments the miss counter and emits the waiting notice in an
iteration if and only if the counter after incrementing is congruent to 1
modulo 10 (misses 1, 11, 21, ...). -/
theorem waiting_notice_every_tenth_miss (st : LoopState)
    (img : Option (ℕ → ℕ → ℤ × ℤ × ℤ)) (sendOk : Bool) :
    ((loopIter st none img sendOk).waiting = true ↔
      (st.no_vlc_count + 1) % 10 = 1) ∧
    (loopIter st none img sendOk).state.no_vlc_count = st.no_vlc_count + 1 := by
  simp [loopIter]

/-- Claim C6: in a successful streaming iteration the computed enhanced
color becomes the new previous color regardless of the send outcome —
the stored previous color is identical in the send-success and
send-failure runs. -/
theorem last_color_independent_of_send (st : LoopState)
    (img : ℕ → ℕ → ℤ × ℤ × ℤ) (sendOk : Bool) :
    (loopIter st (some ()) (some img) true).state.last_color =
      (loopIter st (some ()) (some img) false).state.last_color ∧
    (loopIter st (some ()) (some img) sendOk).computed =
      some ((loopIter st (some ()) (some img) sendOk).state.last_color) :=
  ⟨rfl, rfl⟩

/-- Claim C7: when frame capture fails, the iteration performs no color
transform and no bulb send, and leaves the previous color unchanged. -/
theorem capture_failure_skips_cycle (st : LoopState) (sendOk : Bool) :
    (loopIter st (some ()) none sendOk).state.last_color = st.last_color ∧
    (loopIter st (some ()) none sendOk).computed = none ∧
    (loopIter st (some ()) none sendOk).sent = none :=
  ⟨rfl, rfl, rfl⟩

/-- Socket events observed by the discovery utility: a successful recvfrom
carrying a responder address and raw payload, or the 2-second idle timeout
raising socket.timeout. -/
inductive ScanEvent where
  | reply (addr : ℕ) (payload : String)
  | idle

/-- Outcome of the discovery script run: the addresses and payloads printed
(one line pair per received reply, in order), whether the script reached
its normal completion path (the except socket.timeout handler), and whether
the finally block closed the socket. -/
structure ScanOutcome where
  printedAddrs : List ℕ
  printedPayloads : List String
  completedNormally : Bool
  socketClosed : Bool

/-- Embedding of the receive loop of find_bulb.py (lines 16-24) over the
sequence of socket events it observes: each reply is printed as it arrives
and the loop repeats; an idle timeout ends the loop through the except
handler (normal completion, not an error) and the finally block closes the
socket. An event list exhausted without a timeout models a loop still
blocked in recvfrom: nothing further printed, socket still open. -/
def scanLoop : List ScanEvent → ScanOutcome
  | [] =>
    { printedAddrs := [], printedPayloads := [],
      completedNormally := false, socketClosed := false }
  | ScanEvent.idle :: _ =>
    { printedAddrs := [], printedPayloads := [],
      completedNormally := true, socketClosed := true }
  | ScanEvent.reply a p :: rest =>
    let r := scanLoop rest
    { printedAddrs := a :: r.printedAddrs
      printedPayloads := p :: r.printedPayloads
      completedNormally := r.completedNormally
      socketClosed := r.socketClosed }

lemma scanLoop_replies_then_idle (rs : List (ℕ × String)) :
    scanLoop (rs.map (fun r => ScanEvent.reply r.1 r.2) ++ [ScanEvent.idle]) =
      { printedAddrs := rs.map Prod.fst
        printedPayloads := rs.map Prod.snd
        completedNormally := true
        socketClosed := true } := by
  induction rs with
  | nil => rfl
  | cons x xs ih => simp [scanLoop, ih]

/-- Claim C9: the discovery utility prints one address/payload pair per
received reply in arrival order and terminates normally (socket closed) on
the idle timeout; with two distinct responders each replying once, both
addresses are printed exactly once. -/
theorem discovery_prints_each_reply (rs : List (ℕ × String)) (a b : ℕ)
    (pa pb : String) (hab : a ≠ b) :
    (scanLoop (rs.map (fun r => ScanEvent.reply r.1 r.2) ++
        [ScanEvent.idle])).printedAddrs = rs.map Prod.fst ∧
    (scanLoop (rs.map (fun r => ScanEvent.reply r.1 r.2) ++
        [ScanEvent.idle])).printedPayloads = rs.map Prod.snd ∧
    (scanLoop (rs.map (fun r => ScanEvent.reply r.1 r.2) ++
        [ScanEvent.idle])).completedNormally = true ∧
    (scanLoop (rs.map (fun r => ScanEvent.reply r.1 r.2) ++
        [ScanEvent.idle])).socketClosed = true ∧
    (scanLoop [ScanEvent.reply a pa, ScanEvent.reply b pb,
        ScanEvent.idle]).printedAddrs.count a = 1 ∧
    (scanLoop [ScanEvent.reply a pa, ScanEvent.reply b pb,
        ScanEvent.idle]).printedAddrs.count b = 1 := by
  rw [scanLoop_replies_then_idle]
  refine ⟨rfl, rfl, rfl, rfl, ?_, ?_⟩ <;>
    simp [scanLoop, List.count_cons, hab, Ne.symm hab]

/-- Witness for discovery_prints_each_reply with responders 1 and 2. -/
theorem discovery_prints_each_reply_witness :
    (1 : ℕ) ≠ 2 ∧
    ((scanLoop ([((5 : ℕ), "x")].map (fun r => ScanEvent.reply r.1 r.2) ++
        [ScanEvent.idle])).printedAddrs = [((5 : ℕ), "x")].map Prod.fst ∧
     (scanLoop ([((5 : ℕ), "x")].map (fun r => ScanEvent.reply r.1 r.2) ++
        [ScanEvent.idle])).printedPayloads = [((5 : ℕ), "x")].map Prod.snd ∧
     (scanLoop ([((5 : ℕ), "x")].map (fun r => ScanEvent.reply r.1 r.2) ++
        [ScanEvent.idle])).completedNormally = true ∧
     (scanLoop ([((5 : ℕ), "x")].map (fun r => ScanEvent.reply r.1 r.2) ++
        [ScanEvent.idle])).socketClosed = true ∧
     (scanLoop [ScanEvent.reply 1 "pa", ScanEvent.reply 2 "pb",
        ScanEvent.idle]).printedAddrs.count 1 = 1 ∧
     (scanLoop [ScanEvent.reply 1 "pa", ScanEvent.reply 2 "pb",
        ScanEvent.idle]).printedAddrs.count 2 = 1) :=
  ⟨by decide,
    discovery_prints_each_reply [((5 : ℕ), "x")] 1 2 ("pa") ("pb")
      (by decide)⟩

/-- Claim C10: a steady signal is a fixed point of smoothing — for every
color with channels in [0,255], smooth_color c c 0.75 = c. -/
theorem smooth_color_fixed (c : ℤ × ℤ × ℤ) (_hc : inRange c) :
    smooth_color c c (3/4) = c := by
  unfold smooth_color
  have h : ∀ n : ℤ, (3/4 : ℚ) * n + (1 - 3/4) * n = (n : ℚ) := by
    intro n; ring
  rw [h c.1, h c.2.1, h c.2.2, ratTrunc_intCast, ratTrunc_intCast,
    ratTrunc_intCast]

/-- Witness for smooth_color_fixed at c = (10, 20, 30). -/
theorem smooth_color_fixed_witness :
    inRange (10, 20, 30) ∧ smooth_color (10, 20, 30) (10, 20, 30) (3/4) = (10, 20, 30) :=
  ⟨by decide, smooth_color_fixed (10, 20, 30) (by decide)⟩
